import Mathlib

/-!
# Verification of the `HashTable` C library (`src/HashTable.c`, `src/HashTable.h`)

Shallow embedding of the separate-chaining hash table. Modelling conventions:

* Keys and values are the `void*` pointers of the C code, abstracted as `Nat`.
  All operations below model the behaviour on non-NULL table/key/value
  arguments; the C NULL-argument early returns are preconditions of the
  claims and are not part of the state transformers.
* A bucket chain (`Element*` linked list) is a `List Element`; the bucket
  array is a `List (List Element)` whose length equals `capacity` for every
  table actually produced by the code.
* `malloc`/`calloc` outcomes are injected through an explicit allocation
  oracle, a `List Bool` consumed one cell per allocation call; an exhausted
  oracle means every further allocation succeeds.
* The float computation
  `(float)(nbElements + 1) / capacity - LOAD_FACTOR > FLT_EPSILON`
  (with `LOAD_FACTOR = 0.7`, `FLT_EPSILON = 2^-23`) is embedded as the
  exact rational inequality `(n+1)/cap > 7/10 + 1/2^23`, cleared of
  denominators over `Nat`:  `10 * 2^23 * (n+1) > (7 * 2^23 + 10) * cap`.
  For `capacity = 0` IEEE float division yields `+inf`, which exceeds the
  threshold; the cleared form also evaluates to `true` there, matching.
* The mutual recursion `insertElement ↔ reHashTable` of the C source is
  embedded with an explicit fuel argument (structural recursion on fuel);
  `none` means the fuel was exhausted, which never happens on the runs the
  theorems below talk about.
-/

set_option maxHeartbeats 1000000

namespace HashTableC

/-- One cell of a bucket chain: C `struct Element_t` (key, value, next),
with the `next` pointer represented by the tail of the enclosing list. -/
structure Element where
  key : Nat
  value : Nat
deriving DecidableEq, Repr

/-- C `struct HashTable_t`: capacity, bucket array, element count and the two
caller-supplied callbacks. -/
structure HashTable where
  capacity : Nat
  elementsArray : List (List Element)
  nbElements : Nat
  hashFunction : Nat → Nat
  compareFunction : Nat → Nat → Int

/-- Result of `insertElement`: C returns `NULL` on error, `(void*)-1` as the
fresh-insert success sentinel, or the previously stored value pointer. -/
inductive InsertRet where
  | error
  | sentinel
  | oldValue (v : Nat)
deriving DecidableEq, Repr

/-- Allocation oracle step: consume one cell per `malloc`/`calloc` call;
an empty oracle means the allocation succeeds. -/
def allocStep : List Bool → Bool × List Bool
  | [] => (true, [])
  | b :: bs => (b, bs)

/-- C `hashKey` (HashTable.c:267-273): `if (key < capacity) return key;
return key % capacity;`. -/
def hashKey (ht : HashTable) (key : Nat) : Nat :=
  if key < ht.capacity then key else key % ht.capacity

/-- The load-factor test of HashTable.c:135-137,
`(float)(nbElements+1)/capacity - LOAD_FACTOR > FLT_EPSILON`, embedded as an
exact integer inequality (see the header comment of this file). -/
def loadFactorExceeded (ht : HashTable) : Bool :=
  decide ((7 * 2 ^ 23 + 10) * ht.capacity < 10 * 2 ^ 23 * (ht.nbElements + 1))

/-- The bucket-index expression `hashKey(hashTable, hashFunction(key))`
appearing verbatim in `insertElement`, `removeElement` and `hasKey`
(HashTable.c:144, 192, 243). -/
def bucketIdx (ht : HashTable) (key : Nat) : Nat :=
  hashKey ht (ht.hashFunction key)

/-- Bucket chain at index `i` (`elementsArray[i].listElements`); out-of-range
reads never happen on the tables the theorems quantify over. -/
def chainAt (ht : HashTable) (i : Nat) : List Element :=
  ht.elementsArray.getD i []

/-- The duplicate-key scan of `insertElement` (HashTable.c:149-163): starting
from the chain head, the C loop runs `while (listElements->next != NULL)`, so
it inspects every chain cell EXCEPT the last one; on a comparison hit it
overwrites that cell's value and hands back the old value. `none` means the
loop fell through (including the never-inspected final cell). -/
def chainReplace (cmp : Nat → Nat → Int) (key value : Nat) :
    List Element → Option (Nat × List Element)
  | [] => none
  | [_] => none
  | e :: rest =>
    if cmp e.key key = 0 then some (e.value, { e with value := value } :: rest)
    else
      match chainReplace cmp key value rest with
      | some (old, rest') => some (old, e :: rest')
      | none => none

/-- The matched-element search of `removeElement` (HashTable.c:200-224): walk
the chain keeping the previous cell, unlink the FIRST cell whose key compares
equal, and return its value; `none` when no cell matches. -/
def chainRemove (cmp : Nat → Nat → Int) (key : Nat) :
    List Element → Option (Nat × List Element)
  | [] => none
  | e :: rest =>
    if cmp e.key key = 0 then some (e.value, rest)
    else
      match chainRemove cmp key rest with
      | some (v, rest') => some (v, e :: rest')
      | none => none

/-- `insertElement` after the resize check (HashTable.c:143-182): locate the
bucket, run the (last-cell-skipping) duplicate scan, otherwise allocate a new
element and append it at the end of the chain (or make it the head). -/
def insertCore (al : List Bool) (ht : HashTable) (key value : Nat) :
    InsertRet × HashTable × List Bool :=
  let index := bucketIdx ht key
  let chain := chainAt ht index
  match chainReplace ht.compareFunction key value chain with
  | some (old, chain') =>
    (InsertRet.oldValue old,
      { ht with elementsArray := ht.elementsArray.set index chain',
                nbElements := ht.nbElements + 1 }, al)
  | none =>
    match allocStep al with
    | (true, al') =>
      (InsertRet.sentinel,
        { ht with
            elementsArray := ht.elementsArray.set index (chain ++ [⟨key, value⟩]),
            nbElements := ht.nbElements + 1 }, al')
    | (false, al') => (InsertRet.error, ht, al')

/-- Accumulator of the migration loops of `reHashTable` (HashTable.c:302-325):
`ok` = still migrating, `failed` = an inner `insertElement` returned NULL (the
C code then frees the old array and returns -3 at once; further iterations are
skipped), `fuelOut` = the fuel of the embedded mutual recursion ran out. -/
inductive RehashSt where
  | ok (ht : HashTable) (al : List Bool)
  | failed (ht : HashTable) (al : List Bool)
  | fuelOut
deriving Inhabited

/-- Inner migration loop of `reHashTable` over one old bucket chain
(HashTable.c:304-324): re-insert every element of the chain in order via
`insertElement`, stopping at the first failure. -/
def rehashInsertChain
    (ins : List Bool → HashTable → Nat → Nat →
      Option (InsertRet × HashTable × List Bool))
    (st : RehashSt) (chain : List Element) : RehashSt :=
  chain.foldl
    (fun st e =>
      match st with
      | .ok ht al =>
        match ins al ht e.key e.value with
        | none => .fuelOut
        | some (ret, ht', al') =>
          if ret = .error then .failed ht' al' else .ok ht' al'
      | s => s)
    st

/-- C `reHashTable` (HashTable.c:275-331), parameterised over the
`insertElement` re-entry point to close the mutual recursion: double the
capacity, calloc the new array (failure → -2, table untouched), swap it in
with `nbElements = 0`, then re-insert every old element chain by chain
(an inner failure → -3 with the table left partially migrated). Result code 0
means success, mirroring the C return value. -/
def reHashTableAux
    (ins : List Bool → HashTable → Nat → Nat →
      Option (InsertRet × HashTable × List Bool))
    (al : List Bool) (ht : HashTable) :
    Option (Int × HashTable × List Bool) :=
  let newCapacity := ht.capacity * 2
  match allocStep al with
  | (false, al') => some (-2, ht, al')
  | (true, al') =>
    let oldArray := ht.elementsArray
    let ht1 : HashTable :=
      { ht with capacity := newCapacity,
                elementsArray := List.replicate newCapacity [],
                nbElements := 0 }
    match oldArray.foldl (rehashInsertChain ins) (.ok ht1 al') with
    | .ok ht2 al2 => some (0, ht2, al2)
    | .failed ht2 al2 => some (-3, ht2, al2)
    | .fuelOut => none

/-- C `insertElement` (HashTable.c:129-183) on non-NULL arguments: run the
load-factor check and possibly `reHashTable` (whose non-zero return aborts the
insert with NULL), then `insertCore`. `fuel` bounds the depth of the
`insertElement ↔ reHashTable` mutual recursion; `none` = fuel exhausted. -/
def insertElementF : Nat → List Bool → HashTable → Nat → Nat →
    Option (InsertRet × HashTable × List Bool)
  | 0, _, _, _, _ => none
  | fuel + 1, al, ht, key, value =>
    if loadFactorExceeded ht then
      match reHashTableAux (fun a h k v => insertElementF fuel a h k v) al ht with
      | none => none
      | some (code, ht', al') =>
        if code = 0 then some (insertCore al' ht' key value)
        else some (.error, ht', al')
    else some (insertCore al ht key value)

/-- C `reHashTable` with the re-entry point instantiated at a given fuel. -/
def reHashTableF (fuel : Nat) (al : List Bool) (ht : HashTable) :
    Option (Int × HashTable × List Bool) :=
  reHashTableAux (fun a h k v => insertElementF fuel a h k v) al ht

/-- C `removeElement` (HashTable.c:186-227) on non-NULL arguments: locate the
bucket, unlink the first comparison-equal cell, decrement `nbElements` and
return the removed value; `(none, ht)` when nothing matches (empty bucket
included), the table unchanged. `nbElements` uses truncated `Nat`
subtraction; the C `size_t` decrement cannot underflow on any table whose
count dominates its live-entry number, which holds for all reachable
tables. -/
def removeElement (ht : HashTable) (key : Nat) : Option Nat × HashTable :=
  let index := bucketIdx ht key
  let chain := chainAt ht index
  match chainRemove ht.compareFunction key chain with
  | some (v, chain') =>
    (some v, { ht with elementsArray := ht.elementsArray.set index chain',
                       nbElements := ht.nbElements - 1 })
  | none => (none, ht)

/-- C `hasKey` (HashTable.c:237-263) on non-NULL arguments: the walk stops at
the first comparison-equal cell and checks the final cell after the loop, so
it reports exactly whether some chain cell compares equal. -/
def hasKey (ht : HashTable) (key : Nat) : Bool :=
  let index := bucketIdx ht key
  let chain := chainAt ht index
  chain.any fun e => ht.compareFunction e.key key == 0

/-- C `getNumElements` (HashTable.c:229-235) on a non-NULL table. -/
def getNumElements (ht : HashTable) : Nat :=
  ht.nbElements

/-- C `createHashTable` (HashTable.c:68-97) with non-NULL callbacks: malloc
the table struct, calloc the zeroed bucket array (two oracle cells), populate
the fields. No validation of `capacity` is performed. -/
def createHashTable (al : List Bool) (capacity : Nat)
    (hashFunction : Nat → Nat) (compareFunction : Nat → Nat → Int) :
    Option HashTable × List Bool :=
  match allocStep al with
  | (false, al1) => (none, al1)
  | (true, al1) =>
    match allocStep al1 with
    | (false, al2) => (none, al2)
    | (true, al2) =>
      (some ⟨capacity, List.replicate capacity [], 0,
             hashFunction, compareFunction⟩, al2)

/-- The table `createHashTable capacity hashFunction compareFunction` returns
when both allocations succeed. -/
def mkTable (capacity : Nat) (hashFunction : Nat → Nat)
    (compareFunction : Nat → Nat → Int) : HashTable :=
  ⟨capacity, List.replicate capacity [], 0, hashFunction, compareFunction⟩

/-- Run a sequence of inserts with an all-successful allocation oracle,
failing (`none`) as soon as one insert returns NULL or runs out of fuel. -/
def insertSeq (fuel : Nat) : HashTable → List (Nat × Nat) → Option HashTable
  | ht, [] => some ht
  | ht, (k, v) :: ps =>
    match insertElementF fuel [] ht k v with
    | none => none
    | some (ret, ht', _) =>
      if ret = .error then none else insertSeq fuel ht' ps

/-- All live entries of the table, bucket by bucket. -/
def tableEntries (ht : HashTable) : List Element :=
  ht.elementsArray.flatten

/-- The key/value pairs of all live entries. -/
def tablePairs (ht : HashTable) : List (Nat × Nat) :=
  (tableEntries ht).map fun e => (e.key, e.value)

/-- The pairs held by one chain. -/
def chainPairs (chain : List Element) : List (Nat × Nat) :=
  chain.map fun e => (e.key, e.value)

/-- Structural well-formedness every table built by the code enjoys: the
bucket array has exactly `capacity` slots and `capacity` is positive. -/
def WF (ht : HashTable) : Prop :=
  ht.elementsArray.length = ht.capacity ∧ 0 < ht.capacity

/-- Every entry sits in the bucket its key hashes to (spec §3 invariant). -/
def goodChains (ht : HashTable) : Prop :=
  ∀ i, ∀ e ∈ chainAt ht i, bucketIdx ht e.key = i

/-- The count bound maintained between operations, i.e. the denominator-
cleared form of `nbElements / capacity ≤ 0.7 + FLT_EPSILON`. -/
def loadOK (ht : HashTable) : Prop :=
  10 * 2 ^ 23 * ht.nbElements ≤ (7 * 2 ^ 23 + 10) * ht.capacity

/-- Invariant carried along a distinct-key insert sequence starting from
`mkTable c`: well-formed array, count bound, count = number of pairs
inserted, the live pairs are exactly the inserted pairs (up to order), every
entry is in its home bucket, and the capacity is `c` times a power of two. -/
def Inv (c : Nat) (ht : HashTable) (ps : List (Nat × Nat)) : Prop :=
  WF ht ∧ loadOK ht ∧ ht.nbElements = ps.length ∧
    List.Perm (tablePairs ht) ps ∧ goodChains ht ∧
    ∃ m, ht.capacity = c * 2 ^ m

/-- Branch condition under which `hashKey` (HashTable.c:272) evaluates
`key % capacity` with `capacity = 0` — undefined behaviour in C. -/
def hashKeyHitsModZero (ht : HashTable) (key : Nat) : Prop :=
  ¬ key < ht.capacity ∧ ht.capacity = 0

/-- Both comparison directions of two keys are nonzero: the semantic meaning
of "distinct keys" for a comparison function that defines equivalence by
returning 0. -/
def keysApart (cmp : Nat → Nat → Int) (p q : Nat × Nat) : Prop :=
  cmp p.1 q.1 ≠ 0 ∧ cmp q.1 p.1 ≠ 0

/-- Internal induction invariant for distinct-key insert sequences: callbacks
fixed, bucket array length = capacity = `cap` > 0, count = number of inserted
pairs, the live pairs are the inserted pairs up to order, and every entry is
in its home bucket. -/
def TState (cap : Nat) (hsh : Nat → Nat) (cmp : Nat → Nat → Int)
    (ht : HashTable) (done : List (Nat × Nat)) : Prop :=
  ht.hashFunction = hsh ∧ ht.compareFunction = cmp ∧
    ht.capacity = cap ∧ ht.elementsArray.length = cap ∧ 0 < cap ∧
    ht.nbElements = done.length ∧ List.Perm (tablePairs ht) done ∧
    goodChains ht

/-- Key/value pairs of a list of bucket chains, in migration order. -/
def bucketsPairs (bs : List (List Element)) : List (Nat × Nat) :=
  bs.flatten.map fun e => (e.key, e.value)

/-! ## List helper lemmas -/

theorem getD_set_self {α : Type _} (l : List α) (i : Nat) (c d : α)
    (h : i < l.length) : (l.set i c).getD i d = c := by
  induction l generalizing i with
  | nil => simp at h
  | cons x xs ih =>
    cases i with
    | zero => rfl
    | succ j =>
      simp only [List.set, List.getD, List.getElem?_cons_succ]
      exact ih j (by simpa using h)

theorem getD_set_ne {α : Type _} (l : List α) (i j : Nat) (c d : α)
    (h : i ≠ j) : (l.set i c).getD j d = l.getD j d := by
  induction l generalizing i j with
  | nil => rfl
  | cons x xs ih =>
    cases i with
    | zero =>
      cases j with
      | zero => exact absurd rfl h
      | succ j' => rfl
    | succ i' =>
      cases j with
      | zero => rfl
      | succ j' =>
        simp only [List.set, List.getD, List.getElem?_cons_succ]
        exact ih i' j' fun hc => h (by rw [hc])

theorem getD_replicate_nil {α : Type _} (n i : Nat) :
    (List.replicate n ([] : List α)).getD i [] = [] := by
  induction n generalizing i with
  | zero => rfl
  | succ m ih =>
    cases i with
    | zero => rfl
    | succ j =>
      simp only [List.replicate, List.getD, List.getElem?_cons_succ]
      exact ih j

theorem flatten_replicate_nil {α : Type _} (n : Nat) :
    (List.replicate n ([] : List α)).flatten = [] := by
  induction n with
  | zero => rfl
  | succ m ih => simp [List.replicate, ih]

theorem flatten_set_perm {α : Type _} (l : List (List α)) (i : Nat) (x : α)
    (h : i < l.length) :
    List.Perm ((l.set i (l.getD i [] ++ [x])).flatten) (l.flatten ++ [x]) := by
  induction l generalizing i with
  | nil => simp at h
  | cons c cs ih =>
    cases i with
    | zero =>
      simp only [List.set, List.getD, List.getElem?_cons_zero, Option.getD_some,
        List.flatten_cons, List.append_assoc]
      exact (List.perm_append_left_iff c).2 (List.perm_append_comm.trans
        (by simp))
    | succ j =>
      simp only [List.set, List.getD, List.getElem?_cons_succ, List.flatten_cons,
        List.append_assoc]
      exact (List.perm_append_left_iff c).2 (by
        simpa [List.getD] using ih j (by simpa using h))

theorem mem_flatten_set {α : Type _} (l : List (List α)) (i : Nat)
    (c : List α) (e : α) (h : e ∈ (l.set i c).flatten) :
    e ∈ l.flatten ∨ e ∈ c := by
  induction l generalizing i with
  | nil => simp at h
  | cons b bs ih =>
    cases i with
    | zero =>
      simp only [List.set, List.flatten_cons, List.mem_append] at h
      rcases h with h | h
      · exact Or.inr h
      · exact Or.inl (by simp [h])
    | succ j =>
      simp only [List.set, List.flatten_cons, List.mem_append] at h
      rcases h with h | h
      · exact Or.inl (by simp [h])
      · rcases ih j h with h' | h'
        · exact Or.inl (by simp [Or.inr, h'])
        · exact Or.inr h'

theorem mem_getD_mem_flatten {α : Type _} (l : List (List α)) (i : Nat)
    (e : α) (h : e ∈ l.getD i []) : e ∈ l.flatten := by
  induction l generalizing i with
  | nil => simp [List.getD] at h
  | cons c cs ih =>
    cases i with
    | zero => simp only [List.flatten_cons, List.mem_append]; exact Or.inl h
    | succ j =>
      simp only [List.getD, List.getElem?_cons_succ] at h
      simp only [List.flatten_cons, List.mem_append]
      exact Or.inr (ih j h)

theorem mem_chainAt_mem_entries (ht : HashTable) (i : Nat) (e : Element)
    (h : e ∈ chainAt ht i) : e ∈ tableEntries ht :=
  mem_getD_mem_flatten _ i e h

/-! ## Chain-level lemmas -/

theorem chainReplace_none_of_nomatch (cmp : Nat → Nat → Int) (key value : Nat)
    (c : List Element) (h : ∀ e ∈ c, cmp e.key key ≠ 0) :
    chainReplace cmp key value c = none := by
  induction c with
  | nil => rfl
  | cons e rest ih =>
    cases rest with
    | nil => rfl
    | cons f rfs =>
      have he : cmp e.key key ≠ 0 := h e (by simp)
      simp only [chainReplace, if_neg he]
      rw [ih fun x hx => h x (by simp [hx])]

theorem chainReplace_keys (cmp : Nat → Nat → Int) (key value : Nat) :
    ∀ (c : List Element) (old : Nat) (c' : List Element),
      chainReplace cmp key value c = some (old, c') →
      c'.map Element.key = c.map Element.key ∧ c'.length = c.length := by
  intro c
  induction c with
  | nil => intro old c' h; simp [chainReplace] at h
  | cons e rest ih =>
    intro old c' h
    cases rest with
    | nil => simp [chainReplace] at h
    | cons f rfs =>
      by_cases he : cmp e.key key = 0
      · simp only [chainReplace, if_pos he] at h
        obtain ⟨h1, h2⟩ := Prod.mk.injEq .. ▸ (Option.some.injEq .. ▸ h)
        subst h2
        simp
      · simp only [chainReplace, if_neg he] at h
        rcases hrec : chainReplace cmp key value (f :: rfs) with _ | ⟨o2, r2⟩
        · rw [hrec] at h; exact absurd h (by simp)
        · rw [hrec] at h
          obtain ⟨h1, h2⟩ := Prod.mk.injEq .. ▸ (Option.some.injEq .. ▸ h)
          subst h2
          obtain ⟨hk, hl⟩ := ih o2 r2 hrec
          simp [hk, hl]

theorem chainRemove_none_iff (cmp : Nat → Nat → Int) (key : Nat)
    (c : List Element) :
    chainRemove cmp key c = none ↔ ∀ e ∈ c, cmp e.key key ≠ 0 := by
  induction c with
  | nil => simp [chainRemove]
  | cons e rest ih =>
    constructor
    · intro h x hx
      by_cases he : cmp e.key key = 0
      · simp [chainRemove, if_pos he] at h
      · rcases List.mem_cons.1 hx with hx | hx
        · exact hx ▸ he
        · refine ih.1 ?_ x hx
          simp only [chainRemove, if_neg he] at h
          rcases hrec : chainRemove cmp key rest with _ | ⟨v, r⟩
          · rfl
          · rw [hrec] at h; simp at h
    · intro h
      have he : cmp e.key key ≠ 0 := h e (by simp)
      simp only [chainRemove, if_neg he]
      rw [ih.2 fun x hx => h x (by simp [hx])]

theorem chainRemove_some_spec (cmp : Nat → Nat → Int) (key : Nat) :
    ∀ (c : List Element) (v : Nat) (c' : List Element),
      chainRemove cmp key c = some (v, c') →
      ∃ pre e suf, c = pre ++ e :: suf ∧ c' = pre ++ suf ∧
        cmp e.key key = 0 ∧ v = e.value ∧ ∀ x ∈ pre, cmp x.key key ≠ 0 := by
  intro c
  induction c with
  | nil => intro v c' h; simp [chainRemove] at h
  | cons e rest ih =>
    intro v c' h
    by_cases he : cmp e.key key = 0
    · simp only [chainRemove, if_pos he] at h
      obtain ⟨h1, h2⟩ := Prod.mk.injEq .. ▸ (Option.some.injEq .. ▸ h)
      exact ⟨[], e, rest, by simp, by simp [h2.symm], he, h1.symm, by simp⟩
    · simp only [chainRemove, if_neg he] at h
      rcases hrec : chainRemove cmp key rest with _ | ⟨v2, r2⟩
      · rw [hrec] at h; exact absurd h (by simp)
      · rw [hrec] at h
        obtain ⟨h1, h2⟩ := Prod.mk.injEq .. ▸ (Option.some.injEq .. ▸ h)
        obtain ⟨pre, f, suf, hc, hc', hf, hv, hpre⟩ := ih v2 r2 hrec
        refine ⟨e :: pre, f, suf, by simp [hc], by simp [h2.symm, hc'], hf,
          h1.symm ▸ hv, ?_⟩
        intro x hx
        rcases List.mem_cons.1 hx with hx | hx
        · exact hx ▸ he
        · exact hpre x hx

theorem chainRemove_append_last (cmp : Nat → Nat → Int) (key v : Nat)
    (c : List Element) (hc : ∀ e ∈ c, cmp e.key key ≠ 0)
    (hk : cmp key key = 0) :
    chainRemove cmp key (c ++ [⟨key, v⟩]) = some (v, c) := by
  induction c with
  | nil => simp [chainRemove, hk]
  | cons e rest ih =>
    have he : cmp e.key key ≠ 0 := hc e (by simp)
    simp only [List.cons_append, chainRemove, if_neg he, List.append_eq]
    rw [ih fun x hx => hc x (by simp [hx])]

/-! ## hashKey and bucket-index lemmas -/

theorem hashKey_lt (ht : HashTable) (key : Nat) (h : 0 < ht.capacity) :
    hashKey ht key < ht.capacity := by
  unfold hashKey
  split
  · assumption
  · exact Nat.mod_lt _ h

theorem bucketIdx_lt (ht : HashTable) (key : Nat) (h : 0 < ht.capacity) :
    bucketIdx ht key < ht.capacity :=
  hashKey_lt ht _ h

theorem bucketIdx_congr (ht ht' : HashTable) (key : Nat)
    (hc : ht'.capacity = ht.capacity) (hh : ht'.hashFunction = ht.hashFunction) :
    bucketIdx ht' key = bucketIdx ht key := by
  unfold bucketIdx hashKey
  rw [hc, hh]

/-! ## insertCore lemmas -/

theorem insertCore_append (ht : HashTable) (k v : Nat) (al : List Bool)
    (hno : ∀ e ∈ chainAt ht (bucketIdx ht k), ht.compareFunction e.key k ≠ 0)
    (hal : (allocStep al).1 = true) :
    insertCore al ht k v =
      (.sentinel,
        { ht with
            elementsArray := ht.elementsArray.set (bucketIdx ht k)
              (chainAt ht (bucketIdx ht k) ++ [⟨k, v⟩]),
            nbElements := ht.nbElements + 1 }, (allocStep al).2) := by
  simp only [insertCore]
  rw [chainReplace_none_of_nomatch _ _ _ _ hno]
  have : allocStep al = (true, (allocStep al).2) := by
    rw [← hal]
  rw [this]

theorem insertCore_replace (ht : HashTable) (k v : Nat) (al : List Bool)
    (old : Nat) (chain' : List Element)
    (hrep : chainReplace ht.compareFunction k v
      (chainAt ht (bucketIdx ht k)) = some (old, chain')) :
    insertCore al ht k v =
      (.oldValue old,
        { ht with
            elementsArray := ht.elementsArray.set (bucketIdx ht k) chain',
            nbElements := ht.nbElements + 1 }, al) := by
  simp only [insertCore]
  rw [hrep]

theorem TState_insertCore (cap : Nat) (hsh : Nat → Nat) (cmp : Nat → Nat → Int)
    (ht : HashTable) (done : List (Nat × Nat)) (k v : Nat)
    (hT : TState cap hsh cmp ht done)
    (hfresh : ∀ p ∈ done, cmp p.1 k ≠ 0) :
    ∃ ht', insertCore [] ht k v = (.sentinel, ht', []) ∧
      TState cap hsh cmp ht' (done ++ [(k, v)]) := by
  obtain ⟨hH, hC, hcap, hlen, hpos, hnb, hperm, hgood⟩ := hT
  have hidx : bucketIdx ht k < ht.elementsArray.length := by
    rw [hlen, ← hcap]; exact bucketIdx_lt ht k (hcap ▸ hpos)
  have hno : ∀ e ∈ chainAt ht (bucketIdx ht k), ht.compareFunction e.key k ≠ 0 := by
    intro e he
    have hmem : (e.key, e.value) ∈ tablePairs ht := by
      unfold tablePairs
      exact List.mem_map.2 ⟨e, mem_chainAt_mem_entries ht _ e he, rfl⟩
    have := hfresh (e.key, e.value) (hperm.mem_iff.1 hmem)
    rw [hC]
    exact this
  refine ⟨_, insertCore_append ht k v [] hno rfl, ?_⟩
  refine ⟨hH, hC, hcap, by simp [hlen], hpos, by simp [hnb], ?_, ?_⟩
  · have h1 : List.Perm (tablePairs { ht with
        elementsArray := ht.elementsArray.set (bucketIdx ht k)
          (chainAt ht (bucketIdx ht k) ++ [⟨k, v⟩]),
        nbElements := ht.nbElements + 1 })
        (tablePairs ht ++ [(k, v)]) := by
      unfold tablePairs tableEntries
      have := flatten_set_perm ht.elementsArray (bucketIdx ht k)
        (⟨k, v⟩ : Element) hidx
      have h2 := this.map fun e : Element => (e.key, e.value)
      simpa [chainAt] using h2
    exact h1.trans (hperm.append_right _)
  · intro i e he
    have hcongr : ∀ x, bucketIdx { ht with
        elementsArray := ht.elementsArray.set (bucketIdx ht k)
          (chainAt ht (bucketIdx ht k) ++ [⟨k, v⟩]),
        nbElements := ht.nbElements + 1 } x = bucketIdx ht x := by
      intro x; exact bucketIdx_congr _ _ x rfl rfl
    rw [hcongr]
    by_cases hi : i = bucketIdx ht k
    · subst hi
      have : chainAt { ht with
          elementsArray := ht.elementsArray.set (bucketIdx ht k)
            (chainAt ht (bucketIdx ht k) ++ [⟨k, v⟩]),
          nbElements := ht.nbElements + 1 } (bucketIdx ht k) =
          chainAt ht (bucketIdx ht k) ++ [⟨k, v⟩] := by
        unfold chainAt
        exact getD_set_self _ _ _ _ hidx
      rw [this] at he
      rcases List.mem_append.1 he with he | he
      · exact hgood _ e he
      · simp at he
        subst he
        rfl
    · have : chainAt { ht with
          elementsArray := ht.elementsArray.set (bucketIdx ht k)
            (chainAt ht (bucketIdx ht k) ++ [⟨k, v⟩]),
          nbElements := ht.nbElements + 1 } i = chainAt ht i := by
        unfold chainAt
        exact getD_set_ne _ _ _ _ _ fun hc => hi hc.symm
      rw [this] at he
      exact hgood i e he

/-! ## Load-factor and unfolding lemmas -/

theorem loadFactorExceeded_false_iff (ht : HashTable) :
    loadFactorExceeded ht = false ↔
      10 * 2 ^ 23 * (ht.nbElements + 1) ≤ (7 * 2 ^ 23 + 10) * ht.capacity := by
  unfold loadFactorExceeded
  rw [decide_eq_false_iff_not, Nat.not_lt]

theorem insertElementF_no_resize (f : Nat) (al : List Bool) (ht : HashTable)
    (k v : Nat) (h : loadFactorExceeded ht = false) :
    insertElementF (f + 1) al ht k v = some (insertCore al ht k v) := by
  simp [insertElementF, h]

theorem insertElementF_resize (f : Nat) (al : List Bool) (ht : HashTable)
    (k v : Nat) (ht' : HashTable) (al' : List Bool)
    (h : loadFactorExceeded ht = true)
    (hre : reHashTableAux (fun a h2 k2 v2 => insertElementF f a h2 k2 v2) al ht =
      some (0, ht', al')) :
    insertElementF (f + 1) al ht k v = some (insertCore al' ht' k v) := by
  simp [insertElementF, h, hre]

theorem keysApart_symm (cmp : Nat → Nat → Int) : Symmetric (keysApart cmp) :=
  fun _ _ h => ⟨h.2, h.1⟩

theorem TState_congr_done (cap : Nat) (hsh : Nat → Nat) (cmp : Nat → Nat → Int)
    (ht : HashTable) (d d' : List (Nat × Nat))
    (hT : TState cap hsh cmp ht d) (hp : List.Perm d d') :
    TState cap hsh cmp ht d' := by
  obtain ⟨h1, h2, h3, h4, h5, h6, h7, h8⟩ := hT
  exact ⟨h1, h2, h3, h4, h5, by rw [h6, hp.length_eq], h7.trans hp, h8⟩

theorem chainPairs_cons (e : Element) (rest : List Element) :
    chainPairs (e :: rest) = (e.key, e.value) :: chainPairs rest := rfl

theorem bucketsPairs_cons (b : List Element) (bs : List (List Element)) :
    bucketsPairs (b :: bs) = chainPairs b ++ bucketsPairs bs := by
  simp [bucketsPairs, chainPairs]

theorem tablePairs_eq_bucketsPairs (ht : HashTable) :
    tablePairs ht = bucketsPairs ht.elementsArray := rfl

/-! ## Migration lemmas for the rehash of a distinct-key table -/

theorem migrate_chain (f c : Nat) (hsh : Nat → Nat) (cmp : Nat → Nat → Int) :
    ∀ (chain : List Element) (tm : HashTable) (done future : List (Nat × Nat)),
      TState (c * 2) hsh cmp tm done →
      List.Pairwise (keysApart cmp) (done ++ (chainPairs chain ++ future)) →
      10 * 2 ^ 23 * (done.length + chain.length + future.length) ≤
        (7 * 2 ^ 23 + 10) * c →
      ∃ tm',
        rehashInsertChain (fun a h2 k2 v2 => insertElementF (f + 1) a h2 k2 v2)
          (.ok tm []) chain = .ok tm' [] ∧
        TState (c * 2) hsh cmp tm' (done ++ chainPairs chain) := by
  intro chain
  induction chain with
  | nil =>
    intro tm done future hT _ _
    exact ⟨tm, rfl, by simpa [chainPairs] using hT⟩
  | cons e rest ih =>
    intro tm done future hT hpw hTot
    have hnb : tm.nbElements = done.length := hT.2.2.2.2.2.1
    have hcapv : tm.capacity = c * 2 := hT.2.2.1
    have hload : loadFactorExceeded tm = false := by
      rw [loadFactorExceeded_false_iff, hnb, hcapv]
      have h1 : (10 : Nat) * 2 ^ 23 = 83886080 := by norm_num
      have h2 : (7 : Nat) * 2 ^ 23 + 10 = 58720266 := by norm_num
      rw [h1, h2] at hTot ⊢
      simp only [List.length_cons] at hTot
      omega
    have hfresh : ∀ p ∈ done, cmp p.1 e.key ≠ 0 := by
      intro p hp
      have hcross := (List.pairwise_append.1 hpw).2.2 p hp (e.key, e.value)
        (by simp [chainPairs_cons])
      exact hcross.1
    obtain ⟨tm1, hcore, hT1⟩ :=
      TState_insertCore (c * 2) hsh cmp tm done e.key e.value hT hfresh
    have hins : insertElementF (f + 1) [] tm e.key e.value =
        some (.sentinel, tm1, []) := by
      rw [insertElementF_no_resize f [] tm e.key e.value hload, hcore]
    have hstep :
        rehashInsertChain (fun a h2 k2 v2 => insertElementF (f + 1) a h2 k2 v2)
          (.ok tm []) (e :: rest) =
        rehashInsertChain (fun a h2 k2 v2 => insertElementF (f + 1) a h2 k2 v2)
          (.ok tm1 []) rest := by
      simp [rehashInsertChain, List.foldl, hins]
    obtain ⟨tm', hrest, hT'⟩ := ih tm1 (done ++ [(e.key, e.value)]) future hT1
      (by
        rw [chainPairs_cons, List.cons_append] at hpw
        rw [List.append_assoc, List.singleton_append]
        exact hpw)
      (by
        simp only [List.length_append, List.length_cons, List.length_nil]
          at hTot ⊢
        omega)
    refine ⟨tm', by rw [hstep, hrest], ?_⟩
    rw [chainPairs_cons]
    rw [List.append_assoc, List.singleton_append] at hT'
    exact hT'

theorem migrate_buckets (f c : Nat) (hsh : Nat → Nat) (cmp : Nat → Nat → Int) :
    ∀ (buckets : List (List Element)) (tm : HashTable) (done : List (Nat × Nat)),
      TState (c * 2) hsh cmp tm done →
      List.Pairwise (keysApart cmp) (done ++ bucketsPairs buckets) →
      10 * 2 ^ 23 * (done.length + (bucketsPairs buckets).length) ≤
        (7 * 2 ^ 23 + 10) * c →
      ∃ tm',
        buckets.foldl
          (rehashInsertChain
            (fun a h2 k2 v2 => insertElementF (f + 1) a h2 k2 v2))
          (.ok tm []) = .ok tm' [] ∧
        TState (c * 2) hsh cmp tm' (done ++ bucketsPairs buckets) := by
  intro buckets
  induction buckets with
  | nil =>
    intro tm done hT _ _
    exact ⟨tm, rfl, by simpa [bucketsPairs] using hT⟩
  | cons b bs ih =>
    intro tm done hT hpw hTot
    obtain ⟨tm1, hchain, hT1⟩ := migrate_chain f c hsh cmp b tm done
      (bucketsPairs bs) hT
      (by rw [bucketsPairs_cons] at hpw; exact hpw)
      (by
        rw [bucketsPairs_cons] at hTot
        simp only [List.length_append, chainPairs, List.length_map] at hTot ⊢
        omega)
    obtain ⟨tm', hfold, hT'⟩ := ih tm1 (done ++ chainPairs b) hT1
      (by
        rw [bucketsPairs_cons] at hpw
        rw [List.append_assoc]
        exact hpw)
      (by
        rw [bucketsPairs_cons] at hTot
        simp only [List.length_append] at hTot ⊢
        omega)
    refine ⟨tm', ?_, ?_⟩
    · rw [List.foldl_cons, hchain, hfold]
    · rw [bucketsPairs_cons, ← List.append_assoc]
      exact hT'

theorem rehash_ok (f c : Nat) (hsh : Nat → Nat) (cmp : Nat → Nat → Int)
    (t : HashTable) (ps : List (Nat × Nat))
    (hT : TState c hsh cmp t ps)
    (hpw : List.Pairwise (keysApart cmp) ps)
    (hload : 10 * 2 ^ 23 * ps.length ≤ (7 * 2 ^ 23 + 10) * c) :
    ∃ t',
      reHashTableAux (fun a h2 k2 v2 => insertElementF (f + 1) a h2 k2 v2) [] t =
        some (0, t', []) ∧
      TState (c * 2) hsh cmp t' (tablePairs t) := by
  obtain ⟨hH, hC, hcap, hlen, hpos, hnb, hperm, hgood⟩ := hT
  have hT1 : TState (c * 2) hsh cmp
      { t with capacity := t.capacity * 2,
               elementsArray := List.replicate (t.capacity * 2) [],
               nbElements := 0 } [] := by
    refine ⟨hH, hC, by rw [hcap], by simp [hcap], by omega, rfl, ?_, ?_⟩
    · simp [tablePairs, tableEntries, flatten_replicate_nil]
    · intro i e he
      simp only [chainAt] at he
      rw [getD_replicate_nil] at he
      simp at he
  have hpw' : List.Pairwise (keysApart cmp) ([] ++ bucketsPairs t.elementsArray) := by
    rw [List.nil_append, ← tablePairs_eq_bucketsPairs]
    exact (hperm.pairwise_iff fun h => ⟨h.2, h.1⟩).2 hpw
  have hTot : 10 * 2 ^ 23 *
      (([] : List (Nat × Nat)).length + (bucketsPairs t.elementsArray).length) ≤
      (7 * 2 ^ 23 + 10) * c := by
    rw [← tablePairs_eq_bucketsPairs]
    have : (tablePairs t).length = ps.length := hperm.length_eq
    simp only [List.length_nil, Nat.zero_add, this]
    exact hload
  obtain ⟨t', hfold, hT'⟩ := migrate_buckets f c hsh cmp t.elementsArray
    { t with capacity := t.capacity * 2,
             elementsArray := List.replicate (t.capacity * 2) [],
             nbElements := 0 } [] hT1 hpw' hTot
  refine ⟨t', ?_, by simpa [tablePairs_eq_bucketsPairs] using hT'⟩
  simp only [reHashTableAux, allocStep]
  rw [hfold]

/-! ## The distinct-key insert-sequence invariant -/

theorem insertSeq_distinct (f c0 : Nat) (hsh : Nat → Nat) (cmp : Nat → Nat → Int) :
    ∀ (rem : List (Nat × Nat)) (t : HashTable) (done : List (Nat × Nat)) (cap : Nat),
      TState cap hsh cmp t done →
      10 * 2 ^ 23 * done.length ≤ (7 * 2 ^ 23 + 10) * cap →
      List.Pairwise (keysApart cmp) (done ++ rem) →
      (∃ m, cap = c0 * 2 ^ m) →
      ∃ t' cap', insertSeq (f + 2) t rem = some t' ∧
        TState cap' hsh cmp t' (done ++ rem) ∧
        10 * 2 ^ 23 * (done ++ rem).length ≤ (7 * 2 ^ 23 + 10) * cap' ∧
        ∃ m, cap' = c0 * 2 ^ m := by
  intro rem
  induction rem with
  | nil =>
    intro t done cap hT hload hpw hcap
    exact ⟨t, cap, rfl, by simpa using hT, by simpa using hload, hcap⟩
  | cons p rest ih =>
    obtain ⟨k, v⟩ := p
    intro t done cap hT hload hpw hcap
    have hfresh : ∀ q ∈ done, cmp q.1 k ≠ 0 := by
      intro q hq
      exact ((List.pairwise_append.1 hpw).2.2 q hq (k, v) (by simp)).1
    cases hex : loadFactorExceeded t with
    | false =>
      obtain ⟨t1, hcore, hT1⟩ :=
        TState_insertCore cap hsh cmp t done k v hT hfresh
      have hins : insertElementF (f + 2) [] t k v = some (.sentinel, t1, []) := by
        rw [insertElementF_no_resize (f + 1) [] t k v hex, hcore]
      have hload1 : 10 * 2 ^ 23 * (done.length + 1) ≤ (7 * 2 ^ 23 + 10) * cap := by
        have := (loadFactorExceeded_false_iff t).1 hex
        rw [hT.2.2.2.2.2.1, hT.2.2.1] at this
        exact this
      obtain ⟨t', cap', hseq, hT', hload', hcap'⟩ :=
        ih t1 (done ++ [(k, v)]) cap hT1
          (by simpa using hload1)
          (by
            rw [List.append_assoc, List.singleton_append]
            exact hpw)
          hcap
      refine ⟨t', cap', ?_, ?_, ?_, hcap'⟩
      · simp only [insertSeq, hins]
        simpa using hseq
      · rw [List.append_assoc, List.singleton_append] at hT'
        exact hT'
      · rw [List.append_assoc, List.singleton_append] at hload'
        exact hload'
    | true =>
      have hpwdone : List.Pairwise (keysApart cmp) done :=
        (List.pairwise_append.1 hpw).1
      obtain ⟨tR, hre, hTR0⟩ := rehash_ok f cap hsh cmp t done hT hpwdone hload
      have hTR : TState (cap * 2) hsh cmp tR done :=
        TState_congr_done _ _ _ _ _ _ hTR0 hT.2.2.2.2.2.2.1
      obtain ⟨t1, hcore, hT1⟩ :=
        TState_insertCore (cap * 2) hsh cmp tR done k v hTR hfresh
      have hins : insertElementF (f + 2) [] t k v = some (.sentinel, t1, []) := by
        rw [insertElementF_resize (f + 1) [] t k v tR [] hex hre, hcore]
      have hload1 : 10 * 2 ^ 23 * (done.length + 1) ≤
          (7 * 2 ^ 23 + 10) * (cap * 2) := by
        have hc1 : 0 < cap := hT.2.2.2.2.1
        have h1 : (10 : Nat) * 2 ^ 23 = 83886080 := by norm_num
        have h2 : (7 : Nat) * 2 ^ 23 + 10 = 58720266 := by norm_num
        rw [h1, h2] at hload ⊢
        clear hcap
        omega
      obtain ⟨t', cap', hseq, hT', hload', hcap'⟩ :=
        ih t1 (done ++ [(k, v)]) (cap * 2) hT1
          (by simpa using hload1)
          (by
            rw [List.append_assoc, List.singleton_append]
            exact hpw)
          (by
            obtain ⟨m, hm⟩ := hcap
            exact ⟨m + 1, by rw [hm, pow_succ, Nat.mul_assoc]⟩)
      refine ⟨t', cap', ?_, ?_, ?_, hcap'⟩
      · simp only [insertSeq, hins]
        simpa using hseq
      · rw [List.append_assoc, List.singleton_append] at hT'
        exact hT'
      · rw [List.append_assoc, List.singleton_append] at hload'
        exact hload'

theorem hasKey_of_goodChains (t : HashTable) (cmp : Nat → Nat → Int) (k : Nat)
    (hC : t.compareFunction = cmp)
    (hgood : goodChains t)
    (hrefl : cmp k k = 0)
    (hmem : ∃ e ∈ tableEntries t, e.key = k) :
    hasKey t k = true := by
  obtain ⟨e, he, hek⟩ := hmem
  obtain ⟨chain, hchain, hechain⟩ := List.mem_flatten.1 he
  obtain ⟨i, hi, hgi⟩ := List.mem_iff_getElem.1 hchain
  have hci : chainAt t i = chain := by
    unfold chainAt
    rw [List.getD_eq_getElem _ _ hi, hgi]
  have hbi : bucketIdx t k = i := by
    rw [← hek]
    exact hgood i e (hci ▸ hechain)
  simp only [hasKey]
  rw [hbi, hci, List.any_eq_true]
  exact ⟨e, hechain, by simp [hC, hek, hrefl]⟩

/-- Claim C4: starting from the table `createHashTable` builds for capacity
`c` (positive) with reflexive comparison, inserting any list of pairwise
comparison-distinct keys with an all-successful allocator succeeds, every
inserted key is afterwards found by `hasKey` (no pair is lost), the live
pairs are exactly the inserted pairs up to order (no pair is duplicated),
the count matches, and the capacity is `c` doubled once per load-factor
crossing (hence `c * 2 ^ m`); the concrete capacity-4 scenario of the spec
is the witness below. -/
theorem claim_C4 (f c : Nat) (hsh : Nat → Nat) (cmp : Nat → Nat → Int)
    (ps : List (Nat × Nat)) (hc : 0 < c)
    (hrefl : ∀ a, cmp a a = 0)
    (hdist : List.Pairwise (keysApart cmp) ps) :
    ∃ t, insertSeq (f + 2) (mkTable c hsh cmp) ps = some t ∧
      (∀ p ∈ ps, hasKey t p.1 = true) ∧
      List.Perm (tablePairs t) ps ∧
      t.nbElements = ps.length ∧
      (∃ m, t.capacity = c * 2 ^ m) := by
  have hT0 : TState c hsh cmp (mkTable c hsh cmp) [] := by
    refine ⟨rfl, rfl, rfl, by simp [mkTable], hc, rfl, ?_, ?_⟩
    · simp [tablePairs, tableEntries, mkTable, flatten_replicate_nil]
    · intro i e he
      simp only [chainAt, mkTable] at he
      rw [getD_replicate_nil] at he
      simp at he
  obtain ⟨t, cap', hseq, hT, _, m, hm⟩ :=
    insertSeq_distinct f c hsh cmp ps (mkTable c hsh cmp) [] c hT0
      (by simp) (by simpa using hdist) ⟨0, by simp⟩
  rw [List.nil_append] at hT
  obtain ⟨hH, hC, hcap, hlen, hpos, hnb, hperm, hgood⟩ := hT
  refine ⟨t, hseq, ?_, hperm, hnb, ⟨m, by rw [hcap, hm]⟩⟩
  intro p hp
  refine hasKey_of_goodChains t cmp p.1 hC hgood (hrefl p.1) ?_
  have : p ∈ tablePairs t := hperm.mem_iff.2 hp
  obtain ⟨e, he, hpe⟩ := List.mem_map.1 this
  exact ⟨e, he, by rw [← hpe]⟩

/-- Witness for claim C4, the spec's concrete scenario: capacity 4, hash
`h(k) = k`, compare `cmp(a,b) = a - b`, inserting keys 0, 1, 2; all
hypotheses hold, all three keys remain retrievable, and the capacity after
the third insert is 8. -/
theorem claim_C4_witness :
    ((0 : Nat) < 4 ∧ (∀ a : Nat, ((a : Int) - a) = 0) ∧
      List.Pairwise (keysApart fun a b => (a : Int) - b)
        [(0, 10), (1, 11), (2, 12)]) ∧
    (∃ t, insertSeq 2 (mkTable 4 (fun k => k) (fun a b => (a : Int) - b))
        [(0, 10), (1, 11), (2, 12)] = some t ∧
      (∀ p ∈ [((0 : Nat), (10 : Nat)), (1, 11), (2, 12)], hasKey t p.1 = true) ∧
      List.Perm (tablePairs t) [(0, 10), (1, 11), (2, 12)] ∧
      t.nbElements = [((0 : Nat), (10 : Nat)), (1, 11), (2, 12)].length ∧
      (∃ m, t.capacity = 4 * 2 ^ m)) ∧
    (insertSeq 2 (mkTable 4 (fun k => k) (fun a b => (a : Int) - b))
        [(0, 10), (1, 11), (2, 12)]).map (fun t => t.capacity) = some 8 :=
  ⟨⟨by norm_num, fun a => by simp,
    by norm_num [List.pairwise_cons, keysApart]⟩,
   claim_C4 0 4 (fun k => k) (fun a b => (a : Int) - b)
     [(0, 10), (1, 11), (2, 12)] (by norm_num) (fun a => by simp)
     (by norm_num [List.pairwise_cons, keysApart]),
   by decide⟩

/-- Claim C1 (evidence of the code bug): on a fresh capacity-8 table with
identity hash and subtraction compare, after a successful `Insert(5, 10)`
the second call `Insert(5, 20)` returns the fresh-insert sentinel
`(void*)-1` instead of the previous value 10, and appends a second entry
with key 5 to the same chain instead of replacing the stored value: the
duplicate scan of HashTable.c:152 (`while (listElements->next != NULL)`)
never inspects the last chain cell, so a key whose entry is last in its
chain is treated as absent. -/
theorem claim_C1 :
    insertSeq 2 (mkTable 8 (fun k => k) (fun a b => (a : Int) - b)) [(5, 10)] =
      some ⟨8, [[], [], [], [], [], [⟨5, 10⟩], [], []], 1,
        fun k => k, fun a b => (a : Int) - b⟩ ∧
    insertElementF 2 []
      ⟨8, [[], [], [], [], [], [⟨5, 10⟩], [], []], 1,
        fun k => k, fun a b => (a : Int) - b⟩ 5 20 =
      some (.sentinel,
        ⟨8, [[], [], [], [], [], [⟨5, 10⟩, ⟨5, 20⟩], [], []], 2,
          fun k => k, fun a b => (a : Int) - b⟩, []) ∧
    InsertRet.sentinel ≠ InsertRet.oldValue 10 :=
  ⟨rfl, rfl, by decide⟩

/-- Claim C2 (evidence of the code bug): the state reached from `Create(8)`
by `Insert(5, 10); Insert(5, 20)` has two entries with comparison-equivalent
keys in the same bucket chain, violating the claimed invariant; consequence
of the last-cell-skipping duplicate scan of HashTable.c:152. -/
theorem claim_C2 :
    ∃ t, insertSeq 2 (mkTable 8 (fun k => k) (fun a b => (a : Int) - b))
        [(5, 10), (5, 20)] = some t ∧
      (chainAt t 5).map Element.key = [5, 5] ∧
      ((chainAt t 5).filter fun e => (e.key : Int) - 5 == 0).length = 2 :=
  ⟨⟨8, [[], [], [], [], [], [⟨5, 10⟩, ⟨5, 20⟩], [], []], 2,
      fun k => k, fun a b => (a : Int) - b⟩, rfl, by decide, by decide⟩

/-- Claim C3 (evidence of the code bug): the state reached from `Create(8)`
with constant hash by `Insert(1,10); Insert(2,20); Insert(1,30)` has
`getNumElements = 3` but only 2 live entries: the duplicate-replace path of
HashTable.c:158 increments `nbElements` although no entry is added. -/
theorem claim_C3 :
    ∃ t, insertSeq 2 (mkTable 8 (fun _ => 0) (fun a b => (a : Int) - b))
        [(1, 10), (2, 20), (1, 30)] = some t ∧
      getNumElements t = 3 ∧ (tableEntries t).length = 2 :=
  ⟨⟨8, [[⟨1, 30⟩, ⟨2, 20⟩], [], [], [], [], [], [], []], 3,
      fun _ => 0, fun a b => (a : Int) - b⟩, rfl, rfl, rfl⟩

/-- Claim C5: for positive capacity the bucket index computed by `hashKey`
equals `key % capacity`, the `key < capacity` shortcut returns `key` (an
equivalent result), and the index expression shared by Insert, Remove and
Contains equals `hashFunction key % capacity`. -/
theorem claim_C5 (ht : HashTable) (k key : Nat) (_h : 0 < ht.capacity) :
    hashKey ht k = k % ht.capacity ∧
    (k < ht.capacity → hashKey ht k = k) ∧
    bucketIdx ht key = ht.hashFunction key % ht.capacity := by
  refine ⟨?_, ?_, ?_⟩
  · unfold hashKey
    split
    · exact (Nat.mod_eq_of_lt (by assumption)).symm
    · rfl
  · intro hk
    unfold hashKey
    rw [if_pos hk]
  · unfold bucketIdx hashKey
    split
    · exact (Nat.mod_eq_of_lt (by assumption)).symm
    · rfl

/-- Witness for claim C5 at the spec's concrete scenario: key 5 in a
capacity-4 identity-hash table goes to bucket `5 mod 4 = 1`. -/
theorem claim_C5_witness :
    ((0 : Nat) < (mkTable 4 (fun k => k) (fun a b => (a : Int) - b)).capacity ∧
      (hashKey (mkTable 4 (fun k => k) (fun a b => (a : Int) - b)) 5 =
          5 % (mkTable 4 (fun k => k) (fun a b => (a : Int) - b)).capacity ∧
        (5 < (mkTable 4 (fun k => k) (fun a b => (a : Int) - b)).capacity →
          hashKey (mkTable 4 (fun k => k) (fun a b => (a : Int) - b)) 5 = 5) ∧
        bucketIdx (mkTable 4 (fun k => k) (fun a b => (a : Int) - b)) 5 =
          (mkTable 4 (fun k => k) (fun a b => (a : Int) - b)).hashFunction 5 %
            (mkTable 4 (fun k => k) (fun a b => (a : Int) - b)).capacity)) ∧
    bucketIdx (mkTable 4 (fun k => k) (fun a b => (a : Int) - b)) 5 = 1 :=
  ⟨⟨by decide,
    claim_C5 (mkTable 4 (fun k => k) (fun a b => (a : Int) - b)) 5 5 (by decide)⟩,
   by decide⟩

/-- Claim C9: inserting a key with no comparison-equivalent entry in its
target chain, with no resize triggered and a successful entry allocation,
appends the new (key, value) entry at the end of that chain (the chain head
if the bucket was empty), increments the count, and returns the success
sentinel, which is distinct from the error return and from every
previous-value return. -/
theorem claim_C9 (f : Nat) (al : List Bool) (ht : HashTable) (k v : Nat)
    (hload : loadFactorExceeded ht = false)
    (hnew : ∀ e ∈ chainAt ht (bucketIdx ht k), ht.compareFunction e.key k ≠ 0)
    (hal : (allocStep al).1 = true) :
    insertElementF (f + 1) al ht k v =
      some (.sentinel,
        { ht with
            elementsArray := ht.elementsArray.set (bucketIdx ht k)
              (chainAt ht (bucketIdx ht k) ++ [⟨k, v⟩]),
            nbElements := ht.nbElements + 1 }, (allocStep al).2) ∧
    (InsertRet.sentinel ≠ .error ∧ ∀ w, InsertRet.sentinel ≠ .oldValue w) := by
  refine ⟨?_, by simp, fun w => by simp⟩
  rw [insertElementF_no_resize f al ht k v hload,
    insertCore_append ht k v al hnew hal]

/-- Witness for claim C9: inserting key 2 into the empty capacity-4 table
appends at the (empty) chain head and returns the sentinel. -/
theorem claim_C9_witness :
    (loadFactorExceeded (mkTable 4 (fun k => k) (fun a b => (a : Int) - b)) =
        false ∧
      (∀ e ∈ chainAt (mkTable 4 (fun k => k) (fun a b => (a : Int) - b))
          (bucketIdx (mkTable 4 (fun k => k) (fun a b => (a : Int) - b)) 2),
        (mkTable 4 (fun k => k) (fun a b => (a : Int) - b)).compareFunction
          e.key 2 ≠ 0) ∧
      (allocStep []).1 = true) ∧
    (insertElementF 1 [] (mkTable 4 (fun k => k) (fun a b => (a : Int) - b))
        2 9 =
      some (.sentinel,
        { mkTable 4 (fun k => k) (fun a b => (a : Int) - b) with
            elementsArray :=
              (mkTable 4 (fun k => k)
                (fun a b => (a : Int) - b)).elementsArray.set
                (bucketIdx (mkTable 4 (fun k => k)
                  (fun a b => (a : Int) - b)) 2)
                (chainAt (mkTable 4 (fun k => k) (fun a b => (a : Int) - b))
                  (bucketIdx (mkTable 4 (fun k => k)
                    (fun a b => (a : Int) - b)) 2) ++ [⟨2, 9⟩]),
            nbElements :=
              (mkTable 4 (fun k => k)
                (fun a b => (a : Int) - b)).nbElements + 1 },
        (allocStep []).2) ∧
      (InsertRet.sentinel ≠ .error ∧
        ∀ w, InsertRet.sentinel ≠ .oldValue w)) :=
  ⟨⟨by decide, by decide, rfl⟩,
   claim_C9 0 [] (mkTable 4 (fun k => k) (fun a b => (a : Int) - b)) 2 9
     (by decide) (by decide) rfl⟩

/-- Claim C10: `createHashTable` performs no validation of the capacity
argument: with valid callbacks and successful allocations it returns a table
of capacity 0; for that table the bucket-index computation of Contains and
Remove falls through to `key % capacity` with `capacity = 0` (undefined
behaviour in C, marked by `hashKeyHitsModZero`), and Insert first sees the
load-factor check trigger (float division by zero gives `+inf`), runs a
resize that keeps capacity `0 * 2 = 0`, and then reaches the same
zero-divisor modulo. -/
theorem claim_C10 (h : Nat → Nat) (cmp : Nat → Nat → Int) (key : Nat)
    (fuel : Nat) :
    (createHashTable [] 0 h cmp).1 = some (mkTable 0 h cmp) ∧
    (mkTable 0 h cmp).capacity = 0 ∧
    hashKeyHitsModZero (mkTable 0 h cmp) ((mkTable 0 h cmp).hashFunction key) ∧
    bucketIdx (mkTable 0 h cmp) key = h key % 0 ∧
    loadFactorExceeded (mkTable 0 h cmp) = true ∧
    ∃ t', reHashTableF fuel [] (mkTable 0 h cmp) = some (0, t', []) ∧
      t'.capacity = 0 ∧ hashKeyHitsModZero t' (t'.hashFunction key) := by
  refine ⟨rfl, rfl, ⟨by simp [mkTable], rfl⟩, ?_, rfl, ?_⟩
  · unfold bucketIdx hashKey mkTable
    simp
  · exact ⟨⟨0, [], 0, h, cmp⟩, rfl, rfl, by simp [mkTable], rfl⟩

/-- Claim C7 counterexample: the insert of key 2 into the reachable
capacity-4 table holding keys 0 and 1 triggers a resize whose bucket-array
allocation succeeds but whose first migration entry allocation fails; the
insert returns the error value, yet the table is NOT in its prior state:
capacity became 8, the count became 0 and both previously stored entries are
gone — the -3 path of HashTable.c:310-321 has no rollback. -/
theorem claim_C7_counterexample :
    insertSeq 2 (mkTable 4 (fun k => k) (fun a b => (a : Int) - b))
        [(0, 10), (1, 11)] =
      some ⟨4, [[⟨0, 10⟩], [⟨1, 11⟩], [], []], 2,
        fun k => k, fun a b => (a : Int) - b⟩ ∧
    insertElementF 2 [true, false]
      ⟨4, [[⟨0, 10⟩], [⟨1, 11⟩], [], []], 2,
        fun k => k, fun a b => (a : Int) - b⟩ 2 99 =
      some (.error,
        ⟨8, [[], [], [], [], [], [], [], []], 0,
          fun k => k, fun a b => (a : Int) - b⟩, []) ∧
    ((8 : Nat) ≠ 4 ∧ (0 : Nat) ≠ 2 ∧
      ([[], [], [], [], [], [], [], []] : List (List Element)) ≠
        [[⟨0, 10⟩], [⟨1, 11⟩], [], []]) :=
  ⟨rfl, rfl, by decide, by decide, by decide⟩

/-- Claim C7 as amended: an Insert that fails because of an allocation
failure returns the error value with the table in its prior state in exactly
these cases: (i) the failing allocation is the new entry and no resize was
triggered; (ii) the failing allocation is the doubled bucket array at the
start of the resize. If the resize ran further before a failure, the prior
state is not restored (see the counterexample). -/
theorem claim_C7 (f : Nat) (al : List Bool) (ht : HashTable) (k v : Nat)
    (hal : (allocStep al).1 = false) :
    (loadFactorExceeded ht = false →
      (∀ e ∈ chainAt ht (bucketIdx ht k), ht.compareFunction e.key k ≠ 0) →
      insertElementF (f + 1) al ht k v =
        some (.error, ht, (allocStep al).2)) ∧
    (loadFactorExceeded ht = true →
      insertElementF (f + 1) al ht k v =
        some (.error, ht, (allocStep al).2)) := by
  have hA : allocStep al = (false, (allocStep al).2) := by
    rw [← hal]
  constructor
  · intro h1 h2
    rw [insertElementF_no_resize f al ht k v h1]
    simp only [insertCore]
    rw [chainReplace_none_of_nomatch _ _ _ _ h2, hA]
  · intro h1
    simp only [insertElementF, h1, if_true, reHashTableAux]
    rw [hA]
    norm_num

/-- Witness for claim C7 as amended, both branches: an entry-allocation
failure in a no-resize insert into the empty capacity-4 table, and a
bucket-array allocation failure in a resize-triggering insert into a full
capacity-4 table; both return the error with the table unchanged. -/
theorem claim_C7_witness :
    ((allocStep [false]).1 = false ∧
      loadFactorExceeded (mkTable 4 (fun k => k) (fun a b => (a : Int) - b)) =
        false ∧
      insertElementF 1 [false]
          (mkTable 4 (fun k => k) (fun a b => (a : Int) - b)) 2 9 =
        some (.error, mkTable 4 (fun k => k) (fun a b => (a : Int) - b),
          (allocStep [false]).2)) ∧
    (loadFactorExceeded
        (⟨4, [[⟨0, 1⟩], [⟨1, 2⟩], [⟨2, 3⟩], []], 3,
          fun k => k, fun a b => (a : Int) - b⟩ : HashTable) = true ∧
      insertElementF 1 [false]
          (⟨4, [[⟨0, 1⟩], [⟨1, 2⟩], [⟨2, 3⟩], []], 3,
            fun k => k, fun a b => (a : Int) - b⟩ : HashTable) 3 9 =
        some (.error,
          (⟨4, [[⟨0, 1⟩], [⟨1, 2⟩], [⟨2, 3⟩], []], 3,
            fun k => k, fun a b => (a : Int) - b⟩ : HashTable),
          (allocStep [false]).2)) :=
  ⟨⟨rfl, by decide,
    (claim_C7 0 [false] (mkTable 4 (fun k => k) (fun a b => (a : Int) - b))
      2 9 rfl).1 (by decide) (by decide)⟩,
   ⟨by decide,
    (claim_C7 0 [false]
      (⟨4, [[⟨0, 1⟩], [⟨1, 2⟩], [⟨2, 3⟩], []], 3,
        fun k => k, fun a b => (a : Int) - b⟩ : HashTable)
      3 9 rfl).2 (by decide)⟩⟩

/-! ## Key-set preservation through insert and rehash (for claim C8) -/

theorem rehashInsertChain_failed (ins : List Bool → HashTable → Nat → Nat →
    Option (InsertRet × HashTable × List Bool)) (h : HashTable) (a : List Bool)
    (c : List Element) :
    rehashInsertChain ins (.failed h a) c = .failed h a := by
  induction c with
  | nil => rfl
  | cons e rest ih => simpa [rehashInsertChain, List.foldl] using ih

theorem rehashInsertChain_fuelOut (ins : List Bool → HashTable → Nat → Nat →
    Option (InsertRet × HashTable × List Bool)) (c : List Element) :
    rehashInsertChain ins .fuelOut c = .fuelOut := by
  induction c with
  | nil => rfl
  | cons e rest ih => simpa [rehashInsertChain, List.foldl] using ih

theorem foldl_rehash_failed (ins : List Bool → HashTable → Nat → Nat →
    Option (InsertRet × HashTable × List Bool)) (h : HashTable) (a : List Bool)
    (bs : List (List Element)) :
    bs.foldl (rehashInsertChain ins) (.failed h a) = .failed h a := by
  induction bs with
  | nil => rfl
  | cons b rest ih => simpa [List.foldl, rehashInsertChain_failed] using ih

theorem foldl_rehash_fuelOut (ins : List Bool → HashTable → Nat → Nat →
    Option (InsertRet × HashTable × List Bool)) (bs : List (List Element)) :
    bs.foldl (rehashInsertChain ins) .fuelOut = .fuelOut := by
  induction bs with
  | nil => rfl
  | cons b rest ih => simpa [List.foldl, rehashInsertChain_fuelOut] using ih

theorem insertCore_spec (al : List Bool) (ht : HashTable) (k v : Nat)
    (ret : InsertRet) (ht' : HashTable) (al' : List Bool)
    (h : insertCore al ht k v = (ret, ht', al')) :
    ht'.capacity = ht.capacity ∧
    ht'.elementsArray.length = ht.elementsArray.length ∧
    ht'.hashFunction = ht.hashFunction ∧
    ht'.compareFunction = ht.compareFunction ∧
    ∀ e ∈ tableEntries ht',
      (∃ e0 ∈ tableEntries ht, e.key = e0.key) ∨ e.key = k := by
  simp only [insertCore] at h
  rcases hrep : chainReplace ht.compareFunction k v
      (chainAt ht (bucketIdx ht k)) with _ | ⟨old, chain'⟩
  · rcases hACal : allocStep al with ⟨b, al2⟩
    cases b with
    | false =>
      simp only [hrep, hACal, Prod.mk.injEq] at h
      obtain ⟨h1, h2, h3⟩ := h
      subst h2
      exact ⟨rfl, rfl, rfl, rfl, fun e he => Or.inl ⟨e, he, rfl⟩⟩
    | true =>
      simp only [hrep, hACal, Prod.mk.injEq] at h
      obtain ⟨h1, h2, h3⟩ := h
      subst h2
      refine ⟨rfl, by simp, rfl, rfl, ?_⟩
      intro e he
      rcases mem_flatten_set _ _ _ _ he with he' | he'
      · exact Or.inl ⟨e, he', rfl⟩
      · rcases List.mem_append.1 he' with he'' | he''
        · exact Or.inl ⟨e, mem_chainAt_mem_entries ht _ e he'', rfl⟩
        · simp at he''
          subst he''
          exact Or.inr rfl
  · simp only [hrep, Prod.mk.injEq] at h
    obtain ⟨h1, h2, h3⟩ := h
    subst h2
    refine ⟨rfl, by simp, rfl, rfl, ?_⟩
    intro e he
    rcases mem_flatten_set _ _ _ _ he with he' | he'
    · exact Or.inl ⟨e, he', rfl⟩
    · have hkeys := (chainReplace_keys ht.compareFunction k v _ old chain' hrep).1
      have : e.key ∈ chain'.map Element.key := List.mem_map.2 ⟨e, he', rfl⟩
      rw [hkeys] at this
      obtain ⟨e0, he0, hke⟩ := List.mem_map.1 this
      exact Or.inl ⟨e0, mem_chainAt_mem_entries ht _ e0 he0, hke.symm⟩

theorem rehashChain_keys
    (ins : List Bool → HashTable → Nat → Nat →
      Option (InsertRet × HashTable × List Bool))
    (K : Nat → Prop)
    (Hins : ∀ al2 h2 k2 v2 ret2 h2' al2',
      ins al2 h2 k2 v2 = some (ret2, h2', al2') → ret2 ≠ .error →
      WF h2 → (∀ e ∈ tableEntries h2, K e.key) → K k2 →
      WF h2' ∧ h2'.hashFunction = h2.hashFunction ∧
        h2'.compareFunction = h2.compareFunction ∧
        ∀ e ∈ tableEntries h2', K e.key) :
    ∀ (chain : List Element) (tm : HashTable) (al0 : List Bool)
      (t2 : HashTable) (al2 : List Bool),
      rehashInsertChain ins (.ok tm al0) chain = .ok t2 al2 →
      WF tm → (∀ e ∈ tableEntries tm, K e.key) →
      (∀ e ∈ chain, K e.key) →
      WF t2 ∧ t2.hashFunction = tm.hashFunction ∧
        t2.compareFunction = tm.compareFunction ∧
        ∀ e ∈ tableEntries t2, K e.key := by
  intro chain
  induction chain with
  | nil =>
    intro tm al0 t2 al2 hfold hWF hK _
    have hfold' : RehashSt.ok tm al0 = RehashSt.ok t2 al2 := hfold
    cases hfold'
    exact ⟨hWF, rfl, rfl, hK⟩
  | cons e rest ih =>
    intro tm al0 t2 al2 hfold hWF hK hchain
    rcases hins : ins al0 tm e.key e.value with _ | ⟨ret, th, ta⟩
    · rw [show rehashInsertChain ins (.ok tm al0) (e :: rest) =
          rehashInsertChain ins .fuelOut rest by
            simp [rehashInsertChain, List.foldl, hins],
        rehashInsertChain_fuelOut] at hfold
      exact absurd hfold (by simp)
    · by_cases hret : ret = .error
      · rw [show rehashInsertChain ins (.ok tm al0) (e :: rest) =
            rehashInsertChain ins (.failed th ta) rest by
              simp [rehashInsertChain, List.foldl, hins, hret],
          rehashInsertChain_failed] at hfold
        exact absurd hfold (by simp)
      · rw [show rehashInsertChain ins (.ok tm al0) (e :: rest) =
            rehashInsertChain ins (.ok th ta) rest by
              simp [rehashInsertChain, List.foldl, hins, hret]] at hfold
        obtain ⟨hWFth, hHth, hCth, hKth⟩ := Hins al0 tm e.key e.value ret th ta
          hins hret hWF hK (hchain e (by simp))
        obtain ⟨hWF2, hH2, hC2, hK2⟩ := ih th ta t2 al2 hfold hWFth hKth
          fun x hx => hchain x (by simp [hx])
        exact ⟨hWF2, by rw [hH2, hHth], by rw [hC2, hCth], hK2⟩

theorem rehashBuckets_keys
    (ins : List Bool → HashTable → Nat → Nat →
      Option (InsertRet × HashTable × List Bool))
    (K : Nat → Prop)
    (Hins : ∀ al2 h2 k2 v2 ret2 h2' al2',
      ins al2 h2 k2 v2 = some (ret2, h2', al2') → ret2 ≠ .error →
      WF h2 → (∀ e ∈ tableEntries h2, K e.key) → K k2 →
      WF h2' ∧ h2'.hashFunction = h2.hashFunction ∧
        h2'.compareFunction = h2.compareFunction ∧
        ∀ e ∈ tableEntries h2', K e.key) :
    ∀ (bs : List (List Element)) (tm : HashTable) (al0 : List Bool)
      (t2 : HashTable) (al2 : List Bool),
      bs.foldl (rehashInsertChain ins) (.ok tm al0) = .ok t2 al2 →
      WF tm → (∀ e ∈ tableEntries tm, K e.key) →
      (∀ c ∈ bs, ∀ e ∈ c, K e.key) →
      WF t2 ∧ t2.hashFunction = tm.hashFunction ∧
        t2.compareFunction = tm.compareFunction ∧
        ∀ e ∈ tableEntries t2, K e.key := by
  intro bs
  induction bs with
  | nil =>
    intro tm al0 t2 al2 hfold hWF hK _
    have hfold' : RehashSt.ok tm al0 = RehashSt.ok t2 al2 := hfold
    cases hfold'
    exact ⟨hWF, rfl, rfl, hK⟩
  | cons b rest ih =>
    intro tm al0 t2 al2 hfold hWF hK hbs
    rw [List.foldl_cons] at hfold
    rcases hst : rehashInsertChain ins (.ok tm al0) b with ⟨tb, ab⟩ | ⟨tb, ab⟩ | _
    · rw [hst] at hfold
      obtain ⟨hWFb, hHb, hCb, hKb⟩ := rehashChain_keys ins K Hins b tm al0 tb ab
        hst hWF hK (hbs b (by simp))
      obtain ⟨hWF2, hH2, hC2, hK2⟩ := ih tb ab t2 al2 hfold hWFb hKb
        fun c hc => hbs c (by simp [hc])
      exact ⟨hWF2, by rw [hH2, hHb], by rw [hC2, hCb], hK2⟩
    · rw [hst, foldl_rehash_failed] at hfold
      exact absurd hfold (by simp)
    · rw [hst, foldl_rehash_fuelOut] at hfold
      exact absurd hfold (by simp)

theorem rehash_keys
    (ins : List Bool → HashTable → Nat → Nat →
      Option (InsertRet × HashTable × List Bool))
    (al : List Bool) (ht : HashTable) (t' : HashTable) (al' : List Bool)
    (Hins : ∀ al2 h2 k2 v2 ret2 h2' al2',
      ins al2 h2 k2 v2 = some (ret2, h2', al2') → ret2 ≠ .error →
      WF h2 →
      (∀ e ∈ tableEntries h2, ∃ e0 ∈ tableEntries ht, e.key = e0.key) →
      (∃ e0 ∈ tableEntries ht, k2 = e0.key) →
      WF h2' ∧ h2'.hashFunction = h2.hashFunction ∧
        h2'.compareFunction = h2.compareFunction ∧
        ∀ e ∈ tableEntries h2', ∃ e0 ∈ tableEntries ht, e.key = e0.key)
    (h : reHashTableAux ins al ht = some (0, t', al'))
    (hWF : WF ht) :
    WF t' ∧ t'.hashFunction = ht.hashFunction ∧
      t'.compareFunction = ht.compareFunction ∧
      ∀ e ∈ tableEntries t', ∃ e0 ∈ tableEntries ht, e.key = e0.key := by
  simp only [reHashTableAux] at h
  rcases hACal : allocStep al with ⟨b, al2⟩
  cases b with
  | false => simp only [hACal] at h; simp at h
  | true =>
    simp only [hACal] at h
    rcases hst : ht.elementsArray.foldl (rehashInsertChain ins)
        (RehashSt.ok ⟨ht.capacity * 2, List.replicate (ht.capacity * 2) [], 0,
          ht.hashFunction, ht.compareFunction⟩ al2) with ⟨tb, ab⟩ | ⟨tb, ab⟩ | _
    · simp only [hst, Option.some.injEq, Prod.mk.injEq] at h
      obtain ⟨h0, h1, h2⟩ := h
      subst h1
      have hWF1 : WF (⟨ht.capacity * 2, List.replicate (ht.capacity * 2) [], 0,
          ht.hashFunction, ht.compareFunction⟩ : HashTable) := by
        refine ⟨by simp, ?_⟩
        have := hWF.2
        simp only [HashTable.capacity]
        omega
      have hK1 : ∀ e ∈ tableEntries (⟨ht.capacity * 2,
          List.replicate (ht.capacity * 2) [], 0,
          ht.hashFunction, ht.compareFunction⟩ : HashTable),
          ∃ e0 ∈ tableEntries ht, e.key = e0.key := by
        intro e he
        simp only [tableEntries, flatten_replicate_nil] at he
        simp at he
      obtain ⟨hWF2, hH2, hC2, hK2⟩ := rehashBuckets_keys ins
        (fun key => ∃ e0 ∈ tableEntries ht, key = e0.key) Hins
        ht.elementsArray _ al2 tb ab hst hWF1 hK1
        (fun c hc e he => ⟨e, List.mem_flatten.2 ⟨c, hc, he⟩, rfl⟩)
      exact ⟨hWF2, hH2, hC2, hK2⟩
    · simp only [hst] at h
      simp at h
    · simp only [hst] at h
      exact absurd h (by simp)

theorem insertElementF_keys :
    ∀ (f : Nat) (al : List Bool) (ht : HashTable) (k v : Nat)
      (ret : InsertRet) (ht' : HashTable) (al' : List Bool),
      insertElementF f al ht k v = some (ret, ht', al') → ret ≠ .error →
      WF ht →
      WF ht' ∧ ht'.hashFunction = ht.hashFunction ∧
        ht'.compareFunction = ht.compareFunction ∧
        ∀ e ∈ tableEntries ht',
          (∃ e0 ∈ tableEntries ht, e.key = e0.key) ∨ e.key = k := by
  intro f
  induction f with
  | zero =>
    intro al ht k v ret ht' al' h
    exact absurd h (by simp [insertElementF])
  | succ f ih =>
    intro al ht k v ret ht' al' h hret hWF
    rw [insertElementF] at h
    cases hex : loadFactorExceeded ht with
    | false =>
      rw [hex] at h
      simp only [Bool.false_eq_true, if_false, Option.some.injEq] at h
      obtain ⟨hc1, hc2, hc3, hc4, hc5⟩ := insertCore_spec al ht k v ret ht' al' h
      exact ⟨⟨by rw [hc2, hc1, hWF.1], by rw [hc1]; exact hWF.2⟩, hc3, hc4, hc5⟩
    | true =>
      rw [hex] at h
      simp only [if_true] at h
      rcases hre : reHashTableAux (fun a h2 k2 v2 => insertElementF f a h2 k2 v2)
          al ht with _ | ⟨code, tR, alR⟩
      · simp only [hre] at h
        exact absurd h (by simp)
      · simp only [hre] at h
        by_cases hcode : code = 0
        · rw [if_pos hcode, Option.some.injEq] at h
          have Hins : ∀ al2 h2 k2 v2 ret2 h2' al2',
              insertElementF f al2 h2 k2 v2 = some (ret2, h2', al2') →
              ret2 ≠ .error → WF h2 →
              (∀ e ∈ tableEntries h2, ∃ e0 ∈ tableEntries ht, e.key = e0.key) →
              (∃ e0 ∈ tableEntries ht, k2 = e0.key) →
              WF h2' ∧ h2'.hashFunction = h2.hashFunction ∧
                h2'.compareFunction = h2.compareFunction ∧
                ∀ e ∈ tableEntries h2',
                  ∃ e0 ∈ tableEntries ht, e.key = e0.key := by
            intro al2 h2 k2 v2 ret2 h2' al2' hi hr2 hW2 hK2 hk2
            obtain ⟨hW', hH', hC', hKey'⟩ := ih al2 h2 k2 v2 ret2 h2' al2' hi hr2 hW2
            refine ⟨hW', hH', hC', ?_⟩
            intro e he
            rcases hKey' e he with ⟨e0, he0, hke⟩ | hke
            · obtain ⟨e1, he1, hk1⟩ := hK2 e0 he0
              exact ⟨e1, he1, by rw [hke, hk1]⟩
            · obtain ⟨e1, he1, hk1⟩ := hk2
              exact ⟨e1, he1, by rw [hke, hk1]⟩
          obtain ⟨hWFR, hHR, hCR, hKR⟩ := rehash_keys _ al ht tR alR Hins
            (hcode ▸ hre) hWF
          obtain ⟨hc1, hc2, hc3, hc4, hc5⟩ := insertCore_spec alR tR k v ret ht' al' h
          refine ⟨⟨by rw [hc2, hc1, hWFR.1], by rw [hc1]; exact hWFR.2⟩,
            by rw [hc3, hHR], by rw [hc4, hCR], ?_⟩
          intro e he
          rcases hc5 e he with ⟨e0, he0, hke⟩ | hke
          · obtain ⟨e1, he1, hk1⟩ := hKR e0 he0
            exact Or.inl ⟨e1, he1, by rw [hke, hk1]⟩
          · exact Or.inr hke
        · rw [if_neg hcode] at h
          simp only [Option.some.injEq, Prod.mk.injEq] at h
          exact absurd h.1.symm hret

/-- Shape of a successful insert of a key that compares equal to no entry of
the table: the result is the sentinel and the key's bucket chain ends with
exactly the new (key, value) entry, every earlier cell of that chain
comparing unequal. -/
theorem insert_fresh_shape (f : Nat) (al : List Bool) (ht : HashTable)
    (k v : Nat) (ret : InsertRet) (ht' : HashTable) (al' : List Bool)
    (hWF : WF ht)
    (hfresh : ∀ e ∈ tableEntries ht, ht.compareFunction e.key k ≠ 0)
    (h : insertElementF f al ht k v = some (ret, ht', al'))
    (hret : ret ≠ .error) :
    ret = .sentinel ∧ WF ht' ∧
      ht'.compareFunction = ht.compareFunction ∧
      (∃ C, chainAt ht' (bucketIdx ht' k) = C ++ [⟨k, v⟩] ∧
        ∀ x ∈ C, ht.compareFunction x.key k ≠ 0) ∧
      ∃ n, ht'.nbElements = n + 1 := by
  cases f with
  | zero => exact absurd h (by simp [insertElementF])
  | succ f =>
    rw [insertElementF] at h
    have hcore : ∀ (t0 : HashTable) (al0 : List Bool), WF t0 →
        t0.compareFunction = ht.compareFunction →
        (∀ e ∈ tableEntries t0, ht.compareFunction e.key k ≠ 0) →
        insertCore al0 t0 k v = (ret, ht', al') →
        ret = .sentinel ∧ WF ht' ∧
          ht'.compareFunction = ht.compareFunction ∧
          (∃ C, chainAt ht' (bucketIdx ht' k) = C ++ [⟨k, v⟩] ∧
            ∀ x ∈ C, ht.compareFunction x.key k ≠ 0) ∧
          ∃ n, ht'.nbElements = n + 1 := by
      intro t0 al0 hWF0 hcmp0 hfresh0 hc
      have hno : ∀ e ∈ chainAt t0 (bucketIdx t0 k),
          t0.compareFunction e.key k ≠ 0 := by
        intro e he
        rw [hcmp0]
        exact hfresh0 e (mem_chainAt_mem_entries t0 _ e he)
      rcases hACal : allocStep al0 with ⟨b, al2⟩
      cases b with
      | false =>
        have hc' : insertCore al0 t0 k v = (.error, t0, al2) := by
          simp only [insertCore]
          rw [chainReplace_none_of_nomatch _ _ _ _ hno, hACal]
        rw [hc'] at hc
        simp only [Prod.mk.injEq] at hc
        exact absurd hc.1.symm hret
      | true =>
        rw [insertCore_append t0 k v al0 hno (by rw [hACal])] at hc
        simp only [Prod.mk.injEq] at hc
        obtain ⟨h1, h2a, h3⟩ := hc
        subst h2a
        have hidx : bucketIdx t0 k < t0.elementsArray.length := by
          rw [hWF0.1]
          exact bucketIdx_lt t0 k hWF0.2
        have hbeq : ∀ x, bucketIdx { t0 with
            elementsArray := t0.elementsArray.set (bucketIdx t0 k)
              (chainAt t0 (bucketIdx t0 k) ++ [⟨k, v⟩]),
            nbElements := t0.nbElements + 1 } x = bucketIdx t0 x :=
          fun x => bucketIdx_congr _ _ x rfl rfl
        refine ⟨h1.symm, ⟨by simp [hWF0.1], hWF0.2⟩, hcmp0, ?_, t0.nbElements, rfl⟩
        refine ⟨chainAt t0 (bucketIdx t0 k), ?_, ?_⟩
        · rw [hbeq k]
          simp only [chainAt]
          exact getD_set_self _ _ _ _ hidx
        · intro x hx
          rw [← hcmp0]
          exact hno x hx
    cases hex : loadFactorExceeded ht with
    | false =>
      rw [hex] at h
      simp only [Bool.false_eq_true, if_false, Option.some.injEq] at h
      exact hcore ht al hWF rfl hfresh h
    | true =>
      rw [hex] at h
      simp only [if_true] at h
      rcases hre : reHashTableAux (fun a h2 k2 v2 => insertElementF f a h2 k2 v2)
          al ht with _ | ⟨code, tR, alR⟩
      · simp only [hre] at h
        exact absurd h (by simp)
      · simp only [hre] at h
        by_cases hcode : code = 0
        · rw [if_pos hcode, Option.some.injEq] at h
          have Hins : ∀ al2 h2 k2 v2 ret2 h2' al2',
              insertElementF f al2 h2 k2 v2 = some (ret2, h2', al2') →
              ret2 ≠ .error → WF h2 →
              (∀ e ∈ tableEntries h2, ∃ e0 ∈ tableEntries ht, e.key = e0.key) →
              (∃ e0 ∈ tableEntries ht, k2 = e0.key) →
              WF h2' ∧ h2'.hashFunction = h2.hashFunction ∧
                h2'.compareFunction = h2.compareFunction ∧
                ∀ e ∈ tableEntries h2',
                  ∃ e0 ∈ tableEntries ht, e.key = e0.key := by
            intro al2 h2 k2 v2 ret2 h2' al2' hi hr2 hW2 hK2 hk2
            obtain ⟨hW', hH', hC', hKey'⟩ :=
              insertElementF_keys f al2 h2 k2 v2 ret2 h2' al2' hi hr2 hW2
            refine ⟨hW', hH', hC', ?_⟩
            intro e he
            rcases hKey' e he with ⟨e0, he0, hke⟩ | hke
            · obtain ⟨e1, he1, hk1⟩ := hK2 e0 he0
              exact ⟨e1, he1, by rw [hke, hk1]⟩
            · obtain ⟨e1, he1, hk1⟩ := hk2
              exact ⟨e1, he1, by rw [hke, hk1]⟩
          obtain ⟨hWFR, hHR, hCR, hKR⟩ := rehash_keys _ al ht tR alR Hins
            (hcode ▸ hre) hWF
          have hfreshR : ∀ e ∈ tableEntries tR,
              ht.compareFunction e.key k ≠ 0 := by
            intro e he
            obtain ⟨e0, he0, hke⟩ := hKR e he
            rw [hke]
            exact hfresh e0 he0
          exact hcore tR alR hWFR hCR hfreshR h
        · rw [if_neg hcode] at h
          simp only [Option.some.injEq, Prod.mk.injEq] at h
          exact absurd h.1.symm hret

/-! ## Claims C6 and C8 -/

/-- Claim C6: if some entry of the key's bucket chain compares equal,
`removeElement` unlinks the FIRST such entry (the chain minus that one entry
is stored back, the bucket head moving up when the match was first),
decrements the count by one (truncated `Nat` subtraction — `nbElements` is
never 0 here on any table whose count dominates its entry number, as in all
reachable states) and returns the removed value; otherwise it returns absent
and the table, count included, is completely unchanged. -/
theorem claim_C6 (ht : HashTable) (key : Nat) :
    ((∃ e ∈ chainAt ht (bucketIdx ht key), ht.compareFunction e.key key = 0) →
      ∃ pre e suf,
        chainAt ht (bucketIdx ht key) = pre ++ e :: suf ∧
        (∀ x ∈ pre, ht.compareFunction x.key key ≠ 0) ∧
        ht.compareFunction e.key key = 0 ∧
        removeElement ht key =
          (some e.value,
            { ht with
                elementsArray :=
                  ht.elementsArray.set (bucketIdx ht key) (pre ++ suf),
                nbElements := ht.nbElements - 1 })) ∧
    ((∀ e ∈ chainAt ht (bucketIdx ht key), ht.compareFunction e.key key ≠ 0) →
      removeElement ht key = (none, ht)) := by
  constructor
  · intro hex
    rcases hrem : chainRemove ht.compareFunction key
        (chainAt ht (bucketIdx ht key)) with _ | ⟨v, chain'⟩
    · obtain ⟨e, he, heq⟩ := hex
      exact absurd heq ((chainRemove_none_iff _ _ _).1 hrem e he)
    · obtain ⟨pre, e, suf, hc, hc', hkey, hv, hpre⟩ :=
        chainRemove_some_spec ht.compareFunction key _ v chain' hrem
      refine ⟨pre, e, suf, hc, hpre, hkey, ?_⟩
      simp only [removeElement]
      rw [hrem, hv, hc']
  · intro hno
    simp only [removeElement]
    rw [(chainRemove_none_iff _ _ _).2 hno]

/-- Witness for claim C6: in a capacity-4 identity-hash table whose bucket 1
holds the chain [(1,10), (5,20)], removing key 5 (bucket 5 mod 4 = 1)
unlinks the second entry and returns 20, and removing the missing key 7
changes nothing. -/
theorem claim_C6_witness :
    (∃ pre e suf,
      chainAt (⟨4, [[], [⟨1, 10⟩, ⟨5, 20⟩], [], []], 2,
          fun k => k, fun a b => (a : Int) - b⟩ : HashTable)
        (bucketIdx (⟨4, [[], [⟨1, 10⟩, ⟨5, 20⟩], [], []], 2,
          fun k => k, fun a b => (a : Int) - b⟩ : HashTable) 5) =
          pre ++ e :: suf ∧
      (∀ x ∈ pre,
        (⟨4, [[], [⟨1, 10⟩, ⟨5, 20⟩], [], []], 2,
          fun k => k, fun a b => (a : Int) - b⟩ : HashTable).compareFunction
          x.key 5 ≠ 0) ∧
      (⟨4, [[], [⟨1, 10⟩, ⟨5, 20⟩], [], []], 2,
        fun k => k, fun a b => (a : Int) - b⟩ : HashTable).compareFunction
        e.key 5 = 0 ∧
      removeElement (⟨4, [[], [⟨1, 10⟩, ⟨5, 20⟩], [], []], 2,
          fun k => k, fun a b => (a : Int) - b⟩ : HashTable) 5 =
        (some e.value,
          { (⟨4, [[], [⟨1, 10⟩, ⟨5, 20⟩], [], []], 2,
              fun k => k, fun a b => (a : Int) - b⟩ : HashTable) with
              elementsArray :=
                (⟨4, [[], [⟨1, 10⟩, ⟨5, 20⟩], [], []], 2,
                  fun k => k,
                  fun a b => (a : Int) - b⟩ : HashTable).elementsArray.set
                  (bucketIdx (⟨4, [[], [⟨1, 10⟩, ⟨5, 20⟩], [], []], 2,
                    fun k => k, fun a b => (a : Int) - b⟩ : HashTable) 5)
                  (pre ++ suf),
              nbElements := 2 - 1 })) ∧
    removeElement (⟨4, [[], [⟨1, 10⟩, ⟨5, 20⟩], [], []], 2,
        fun k => k, fun a b => (a : Int) - b⟩ : HashTable) 7 =
      (none, (⟨4, [[], [⟨1, 10⟩, ⟨5, 20⟩], [], []], 2,
        fun k => k, fun a b => (a : Int) - b⟩ : HashTable)) :=
  ⟨(claim_C6 (⟨4, [[], [⟨1, 10⟩, ⟨5, 20⟩], [], []], 2,
      fun k => k, fun a b => (a : Int) - b⟩ : HashTable) 5).1
      ⟨⟨5, 20⟩, by decide, by decide⟩,
   (claim_C6 (⟨4, [[], [⟨1, 10⟩, ⟨5, 20⟩], [], []], 2,
      fun k => k, fun a b => (a : Int) - b⟩ : HashTable) 7).2 (by decide)⟩

/-- Claim C8 counterexample: the table reached from `Create(8)` by
`Insert(5,1); Insert(5,2)` (the insert bug leaves two key-5 entries in one
chain); a further `Insert(5,3)` succeeds, returning the old value 1, but
after `Remove(5)` the key 5 is STILL contained — `Contains` is true, not
false as the claim requires. -/
theorem claim_C8_counterexample :
    insertSeq 2 (mkTable 8 (fun k => k) (fun a b => (a : Int) - b))
        [(5, 1), (5, 2)] =
      some ⟨8, [[], [], [], [], [], [⟨5, 1⟩, ⟨5, 2⟩], [], []], 2,
        fun k => k, fun a b => (a : Int) - b⟩ ∧
    insertElementF 2 []
      ⟨8, [[], [], [], [], [], [⟨5, 1⟩, ⟨5, 2⟩], [], []], 2,
        fun k => k, fun a b => (a : Int) - b⟩ 5 3 =
      some (.oldValue 1,
        ⟨8, [[], [], [], [], [], [⟨5, 3⟩, ⟨5, 2⟩], [], []], 3,
          fun k => k, fun a b => (a : Int) - b⟩, []) ∧
    hasKey
      (removeElement
        ⟨8, [[], [], [], [], [], [⟨5, 3⟩, ⟨5, 2⟩], [], []], 3,
          fun k => k, fun a b => (a : Int) - b⟩ 5).2 5 = true :=
  ⟨rfl, rfl, rfl⟩

/-- Claim C8 as amended: for a table that contains NO entry comparing equal
to `k` (in particular any table built by inserts of pairwise-distinct keys),
with a reflexive comparison at `k`: after a successful `Insert(t, k, v)`
followed by `Remove(t, k)`, the removed value is `v`, `Contains(t, k)` is
false, and the count is exactly one less than its post-insert value. The
original claim fails when an equivalent key already sits in the table twice
(see the counterexample), which the insert bug makes reachable. -/
theorem claim_C8 (f : Nat) (al : List Bool) (ht : HashTable) (k v : Nat)
    (ret : InsertRet) (ht' : HashTable) (al' : List Bool)
    (hWF : WF ht)
    (hrefl : ht.compareFunction k k = 0)
    (hfresh : ∀ e ∈ tableEntries ht, ht.compareFunction e.key k ≠ 0)
    (hins : insertElementF f al ht k v = some (ret, ht', al'))
    (hret : ret ≠ .error) :
    (removeElement ht' k).1 = some v ∧
    hasKey (removeElement ht' k).2 k = false ∧
    (removeElement ht' k).2.nbElements + 1 = ht'.nbElements := by
  obtain ⟨hsent, hWF', hcmp', ⟨C, hchain, hCfree⟩, n, hnb⟩ :=
    insert_fresh_shape f al ht k v ret ht' al' hWF hfresh hins hret
  have hCfree' : ∀ x ∈ C, ht'.compareFunction x.key k ≠ 0 := by
    intro x hx
    rw [hcmp']
    exact hCfree x hx
  have hrem : chainRemove ht'.compareFunction k
      (chainAt ht' (bucketIdx ht' k)) = some (v, C) := by
    rw [hchain]
    exact chainRemove_append_last ht'.compareFunction k v C hCfree'
      (by rw [hcmp']; exact hrefl)
  have hresult : removeElement ht' k =
      (some v,
        { ht' with
            elementsArray := ht'.elementsArray.set (bucketIdx ht' k) C,
            nbElements := ht'.nbElements - 1 }) := by
    simp only [removeElement]
    rw [hrem]
  refine ⟨by rw [hresult], ?_, by rw [hresult]; simp [hnb]⟩
  rw [hresult]
  have hidx : bucketIdx ht' k < ht'.elementsArray.length := by
    rw [hWF'.1]
    exact bucketIdx_lt ht' k hWF'.2
  have hbeq : bucketIdx { ht' with
      elementsArray := ht'.elementsArray.set (bucketIdx ht' k) C,
      nbElements := ht'.nbElements - 1 } k = bucketIdx ht' k :=
    bucketIdx_congr _ _ k rfl rfl
  simp only [hasKey, hbeq, chainAt]
  rw [getD_set_self _ _ _ _ hidx]
  rw [List.any_eq_false]
  intro x hx
  simp [beq_iff_eq, hCfree' x hx]

/-- Witness for claim C8: inserting the fresh key 2 into the empty
capacity-4 table and removing it again leaves a table without key 2 and
restores the count. -/
theorem claim_C8_witness :
    (WF (mkTable 4 (fun k => k) (fun a b => (a : Int) - b)) ∧
      (mkTable 4 (fun k => k)
        (fun a b => (a : Int) - b)).compareFunction 2 2 = 0 ∧
      (∀ e ∈ tableEntries (mkTable 4 (fun k => k) (fun a b => (a : Int) - b)),
        (mkTable 4 (fun k => k)
          (fun a b => (a : Int) - b)).compareFunction e.key 2 ≠ 0) ∧
      insertElementF 1 [] (mkTable 4 (fun k => k) (fun a b => (a : Int) - b))
          2 9 =
        some (.sentinel,
          ⟨4, [[], [], [⟨2, 9⟩], []], 1,
            fun k => k, fun a b => (a : Int) - b⟩, []) ∧
      InsertRet.sentinel ≠ InsertRet.error) ∧
    ((removeElement
        (⟨4, [[], [], [⟨2, 9⟩], []], 1,
          fun k => k, fun a b => (a : Int) - b⟩ : HashTable) 2).1 = some 9 ∧
      hasKey (removeElement
        (⟨4, [[], [], [⟨2, 9⟩], []], 1,
          fun k => k, fun a b => (a : Int) - b⟩ : HashTable) 2).2 2 = false ∧
      (removeElement
        (⟨4, [[], [], [⟨2, 9⟩], []], 1,
          fun k => k, fun a b => (a : Int) - b⟩ : HashTable) 2).2.nbElements
          + 1 =
        (⟨4, [[], [], [⟨2, 9⟩], []], 1,
          fun k => k,
          fun a b => (a : Int) - b⟩ : HashTable).nbElements) :=
  ⟨⟨⟨by decide, by decide⟩, by decide, by decide, rfl, by decide⟩,
   claim_C8 1 [] (mkTable 4 (fun k => k) (fun a b => (a : Int) - b)) 2 9
     .sentinel
     ⟨4, [[], [], [⟨2, 9⟩], []], 1, fun k => k, fun a b => (a : Int) - b⟩ []
     ⟨by decide, by decide⟩ (by decide) (by decide) rfl (by decide)⟩

end HashTableC
